import Mathlib

/-!
Verification development for the wolfictl advisory-index diff engine and the
melange package-config loader.

The loader (`pkg/melange/melange.go`) is embedded directly from its source.
The diff engine itself is not part of the available sources (only its test,
`pkg/advisory/diff_test.go`, is), so its data model and the three comparison
layers are modelled from the specification (spec.md §3, §4.1–§4.3); each such
definition says so in its doc comment.
-/

/-! ### Data model (spec §3, shapes matching the test's v2 schema) -/

/-- Modelled from the spec: the closed enumeration of event type tags
(spec §3 "Event": true-positive determination, false-positive determination,
and other advisory-lifecycle markers). -/
inductive EventType where
  | detection
  | truePositiveDetermination
  | falsePositiveDetermination
  | fixed
deriving DecidableEq, Repr

/-- Modelled from the spec: an immutable timeline entry with a timestamp and a
type tag; compared by full structural equality (spec §3 "Event"). -/
structure Event where
  timestamp : Int
  type : EventType
deriving DecidableEq, Repr

/-- Modelled from the spec: tracked handling of one vulnerability identifier —
identifier, alias identifiers, and an ordered event timeline (spec §3). -/
structure Advisory where
  id : String
  aliases : List String
  events : List Event
deriving DecidableEq, Repr

/-- Package identity of a document (the join key at index level). -/
structure Package where
  name : String
deriving DecidableEq, Repr

/-- Modelled from the spec: one package's advisory data — schema-version tag,
package identity, and an ordered sequence of advisories (spec §3). -/
structure Document where
  schemaVersion : String
  package : Package
  advisories : List Advisory
deriving DecidableEq, Repr

/-- Modelled from the spec: an index is a collection of documents keyed by
package name; key uniqueness is a producer-side invariant (spec §3). -/
abbrev Index := List Document

/-! ### Result records (shapes as in the test file) -/

/-- Advisory-level delta: identifier, full before/after snapshots, and the
derived added/removed event lists. -/
structure DiffResult where
  id : String
  added : Advisory
  removed : Advisory
  addedEvents : List Event
  removedEvents : List Event
deriving DecidableEq, Repr

/-- Document-level delta: package name plus added/removed advisories and
modified advisory deltas. -/
structure DocumentDiffResult where
  name : String
  added : List Advisory
  removed : List Advisory
  modified : List DiffResult
deriving DecidableEq, Repr

/-- Top-level delta: added/removed documents and modified document deltas. -/
structure IndexDiffResult where
  added : List Document
  removed : List Document
  modified : List DocumentDiffResult
deriving DecidableEq, Repr

/-! ### Equality predicates and key handling -/

/-- Modelled from the spec: alias identifiers form an unordered set, so two
alias collections are compared by mutual membership (spec §3, §4.1). -/
def aliasesEqAsSets (xs ys : List String) : Prop :=
  (∀ x ∈ xs, x ∈ ys) ∧ (∀ y ∈ ys, y ∈ xs)

instance (xs ys : List String) : Decidable (aliasesEqAsSets xs ys) := by
  unfold aliasesEqAsSets
  exact inferInstance

/-- Modelled from the spec: the Advisory Differ's equality check — deep
structural equality of identifier, alias set (unordered), and event sequence
(order-sensitive) (spec §4.1). -/
def advEq (a b : Advisory) : Prop :=
  a.id = b.id ∧ aliasesEqAsSets a.aliases b.aliases ∧ a.events = b.events

instance (a b : Advisory) : Decidable (advEq a b) := by
  unfold advEq
  exact inferInstance

/-- Look up an advisory by identifier (the join key at document level). -/
def findAdv (k : String) (l : List Advisory) : Option Advisory :=
  l.find? (fun adv => decide (adv.id = k))

/-- Look up a document by package name (the join key at index level). -/
def findDoc (k : String) (l : Index) : Option Document :=
  l.find? (fun doc => decide (doc.package.name = k))

/-- Lexicographic (character-wise) order on strings, the order `sort.Strings`
uses (byte-wise in Go; identical on the character lists Lean strings hold). -/
def strLe (a b : String) : Prop :=
  a.data ≤ b.data

instance (a b : String) : Decidable (strLe a b) := by
  unfold strLe
  exact inferInstance

instance : IsTrans String strLe :=
  ⟨fun _ _ _ h1 h2 => le_trans h1 h2⟩

instance : IsTotal String strLe :=
  ⟨fun a b => le_total a.data b.data⟩

instance : IsAntisymm String strLe :=
  ⟨fun _ _ h1 h2 => String.ext (le_antisymm h1 h2)⟩

/-- Sort a list of strings lexicographically (ascending). -/
def sortStrings (l : List String) : List String :=
  List.insertionSort strLe l

/-- Modelled from the spec: the sorted, deduplicated union of the join keys of
two keyed collections, giving the stable output ordering the spec requires
(spec §4.3 determinism requirement). -/
def unionKeys (xs ys : List String) : List String :=
  sortStrings ((xs ++ ys).dedup)

/-- Pointwise comparison of optional advisories under the Advisory Differ's
equality check. -/
def optAdvEq : Option Advisory → Option Advisory → Prop
  | none, none => True
  | some a, some b => advEq a b
  | none, some _ => False
  | some _, none => False

instance (x y : Option Advisory) : Decidable (optAdvEq x y) :=
  match x, y with
  | none, none => isTrue trivial
  | some a, some b => (inferInstance : Decidable (advEq a b))
  | none, some _ => isFalse (fun h => h)
  | some _, none => isFalse (fun h => h)

/-- Modelled from the spec: the Document Differ's equality check — deep
structural equality of the schema-version tag and of the advisory collection
as a set keyed by identifier (advisory order irrelevant) (spec §4.2). -/
def docEq (a b : Document) : Prop :=
  a.schemaVersion = b.schemaVersion ∧
    ∀ k ∈ unionKeys (a.advisories.map (fun adv => adv.id))
        (b.advisories.map (fun adv => adv.id)),
      optAdvEq (findAdv k a.advisories) (findAdv k b.advisories)

instance (a b : Document) : Decidable (docEq a b) := by
  unfold docEq
  exact inferInstance

/-! ### The three comparison layers (spec §4.1–§4.3) -/

/-- Modelled from the spec: the Advisory Differ — for a matched, unequal
advisory pair, emit the identifier, the full old snapshot as removed, the full
new snapshot as added, and the membership-based event delta (spec §4.1). -/
def diffAdvisories (old new : Advisory) : DiffResult :=
  { id := old.id
    added := new
    removed := old
    addedEvents := new.events.filter (fun e => decide (e ∉ old.events))
    removedEvents := old.events.filter (fun e => decide (e ∉ new.events)) }

/-- Modelled from the spec: the Document Differ — partition advisories of a
matched document pair by identifier into added, removed, and modified
(spec §4.2), traversing the sorted union of identifiers (spec §4.3
determinism). -/
def diffDocuments (old new : Document) : DocumentDiffResult :=
  let keys := unionKeys (old.advisories.map (fun adv => adv.id))
    (new.advisories.map (fun adv => adv.id))
  { name := new.package.name
    added := keys.filterMap (fun k =>
      match findAdv k old.advisories, findAdv k new.advisories with
      | none, some adv => some adv
      | _, _ => none)
    removed := keys.filterMap (fun k =>
      match findAdv k old.advisories, findAdv k new.advisories with
      | some adv, none => some adv
      | _, _ => none)
    modified := keys.filterMap (fun k =>
      match findAdv k old.advisories, findAdv k new.advisories with
      | some a, some b => if advEq a b then none else some (diffAdvisories a b)
      | _, _ => none) }

/-- Modelled from the spec: the Index Differ, the public entry point —
partition documents by package name into added, removed, and modified
(spec §4.3), traversing the sorted union of package names. -/
def IndexDiff (a b : Index) : IndexDiffResult :=
  let keys := unionKeys (a.map (fun doc => doc.package.name))
    (b.map (fun doc => doc.package.name))
  { added := keys.filterMap (fun k =>
      match findDoc k a, findDoc k b with
      | none, some doc => some doc
      | _, _ => none)
    removed := keys.filterMap (fun k =>
      match findDoc k a, findDoc k b with
      | some doc, none => some doc
      | _, _ => none)
    modified := keys.filterMap (fun k =>
      match findDoc k a, findDoc k b with
      | some da, some db => if docEq da db then none else some (diffDocuments da db)
      | _, _ => none) }

/-! ### Mirror operations (the vocabulary of the symmetry property, spec §8) -/

/-- Swap the added/removed snapshots and event lists of an advisory delta,
keeping the identifier. -/
def DiffResult.mirror (r : DiffResult) : DiffResult :=
  { id := r.id
    added := r.removed
    removed := r.added
    addedEvents := r.removedEvents
    removedEvents := r.addedEvents }

/-- Swap the added/removed advisory collections of a document delta and mirror
each modified entry, keeping the package name. -/
def DocumentDiffResult.mirror (r : DocumentDiffResult) : DocumentDiffResult :=
  { name := r.name
    added := r.removed
    removed := r.added
    modified := r.modified.map DiffResult.mirror }

/-- Swap the added/removed document collections of an index delta and mirror
each modified entry. -/
def IndexDiffResult.mirror (r : IndexDiffResult) : IndexDiffResult :=
  { added := r.removed
    removed := r.added
    modified := r.modified.map DocumentDiffResult.mirror }

/-! ### The melange package-config loader (embedded from pkg/melange/melange.go) -/

/-- The nested `package` block that `ConfigCheck` unmarshals: name and
version. -/
structure ConfigCheckPackage where
  name : String
  version : String
deriving DecidableEq, Repr

/-- `ConfigCheck`: the minimal shape unmarshalled from a candidate file to
decide whether it is a melange config. -/
structure ConfigCheck where
  package : ConfigCheckPackage
deriving DecidableEq, Repr

/-- `isMelangeConfig`: a config is a melange config when both the package name
and the package version are non-empty. -/
def ConfigCheck.isMelangeConfig (c : ConfigCheck) : Bool :=
  if c.package.name = "" then false
  else if c.package.version = "" then false
  else true

/-- Abstraction of the external `config.Configuration` (chainguard.dev/melange):
only the package name (the map key) and version are read by this package. -/
structure MelangeConfig where
  name : String
  version : String
deriving DecidableEq, Repr

/-- The observable content of one file: its raw text (scanned by
`findNoLint`), the result of the external `yaml.Unmarshal` into `ConfigCheck`
(`none` = unmarshal error), and the result of the external
`config.ParseConfiguration` (`none` = parse error). -/
structure FileData where
  text : String
  check : Option ConfigCheck
  config : Option MelangeConfig
deriving DecidableEq, Repr

/-- A directory entry: a regular file with its data, or a subdirectory with
its own entries. -/
inductive FsEntry where
  | file (name : String) (data : FileData)
  | dir (name : String) (entries : List FsEntry)

/-- The directory handed to the loader: its path and its direct entries. -/
structure Dir where
  path : String
  entries : List FsEntry

/-- `filepath.Ext(path) == ".yaml"`: the extension test the walk applies
(`filepath.Ext` looks at the suffix of the final path element after the last
dot, so the test is exactly "the path ends in `.yaml`"). -/
def isYaml (path : String) : Bool :=
  List.isSuffixOf (".yaml").data path.data

/-- The candidate list produced by the `filepath.Walk` in
`ReadAllPackagesFromRepo`: the root itself is visited first (it is a
directory, but the `IsDir && path != dir` guard does not fire for the root, so
the extension test applies to it), then each direct entry; every subdirectory
returns `filepath.SkipDir`, so nested files are never visited. -/
def walkFiles (d : Dir) : List String :=
  (if isYaml d.path then [d.path] else []) ++
    d.entries.filterMap (fun e =>
      match e with
      | .file n _ => if isYaml n then some (d.path ++ "/" ++ n) else none
      | .dir _ _ => none)

/-- `sort.Strings(fileList)`: the candidate list sorted lexicographically. -/
def sortedFiles (d : Dir) : List String :=
  sortStrings (walkFiles d)

/-- `os.ReadFile`: reading a path succeeds exactly when it names a regular
file directly in the directory. -/
def readFile (d : Dir) (path : String) : Option FileData :=
  d.entries.findSome? (fun e =>
    match e with
    | .file n fd => if d.path ++ "/" ++ n = path then some fd else none
    | .dir _ _ => none)

/-- `filepath.Rel(dir, fi)` for the paths this loader builds
(`dir ++ "/" ++ name`): strip the directory prefix and the separator. -/
def relPath (dir fi : String) : String :=
  fi.drop (dir.length + 1)

/-- `strings.Split` on a single separator character, over character lists:
splitting the empty text yields one empty field, and each separator ends the
current field. -/
def splitOnChar (c : Char) : List Char → List (List Char)
  | [] => [[]]
  | x :: xs =>
    match splitOnChar c xs, decide (x = c) with
    | r, true => [] :: r
    | [], false => [[x]]
    | y :: ys, false => (x :: y) :: ys

/-- `findNoLint` applied to file text: split on newlines, take the first line
starting with the `#nolint:` marker, strip the marker (8 characters) and
split the remainder on commas; otherwise no directives. -/
def findNoLint (text : String) : List String :=
  match (splitOnChar (Char.ofNat 10) text.data).find?
      (fun line => List.isPrefixOf ("#nolint:").data line) with
  | some line => (splitOnChar (Char.ofNat 44) (line.drop 8)).map String.mk
  | none => []

/-- `ReadMelangeConfig`: parse one melange config from the named file;
`config.ParseConfiguration` reads the file itself, so an unreadable path is a
parse failure. -/
def ReadMelangeConfig (d : Dir) (path : String) : Option MelangeConfig :=
  match readFile d path with
  | none => none
  | some fd => fd.config

/-- The source `findNoLint` takes a filename and reads it; `none` is the read
error. -/
def findNoLintFile (d : Dir) (path : String) : Option (List String) :=
  (readFile d path).map (fun fd => findNoLint fd.text)

/-- `Packages`: one loaded package config with its filename, directory, nolint
directives and hash. -/
structure Packages where
  config : MelangeConfig
  filename : String
  dir : String
  nolint : List String
  hash : String
deriving DecidableEq, Repr

/-- The `map[string]*Packages` the loader builds. -/
abbrev PkgMap := List (String × Packages)

/-- `p[k] = v` on a Go map: replace any existing binding of `k`. -/
def mapInsert (m : PkgMap) (k : String) (v : Packages) : PkgMap :=
  m.filter (fun kv => decide (kv.1 ≠ k)) ++ [(k, v)]

/-- `p[k]` on a Go map. -/
def mapLookup (m : PkgMap) (k : String) : Option Packages :=
  (m.find? (fun kv => decide (kv.1 = k))).map (fun kv => kv.2)

/-- The per-file loop body of `ReadAllPackagesFromRepo`, over the sorted
candidate list: read the file (read error aborts), try the `ConfigCheck`
unmarshal (failure skips the file), apply `isMelangeConfig` (failure skips),
then fully parse via `ReadMelangeConfig` and scan for nolint directives
(either failure aborts), and insert keyed by the parsed package name. -/
def processFiles (d : Dir) : List String → PkgMap → PkgMap × Option String
  | [], p => (p, none)
  | fi :: rest, p =>
    match readFile d fi with
    | none => (p, some ("failed to read file " ++ fi))
    | some fd =>
      match fd.check with
      | none => processFiles d rest p
      | some check =>
        if check.isMelangeConfig then
          match ReadMelangeConfig d fi with
          | none => (p, some ("failed to read package config " ++ fi))
          | some cfg =>
            match findNoLintFile d fi with
            | none => (p, some ("failed to read package config " ++ fi))
            | some nolint =>
              processFiles d rest (mapInsert p cfg.name
                { config := cfg
                  filename := relPath d.path fi
                  dir := d.path
                  nolint := nolint
                  hash := "" })
        else processFiles d rest p

/-- `ReadAllPackagesFromRepo`: walk the directory for `.yaml` candidates, sort
them, and run the per-file loop starting from the empty map. -/
def ReadAllPackagesFromRepo (d : Dir) : PkgMap × Option String :=
  processFiles d (sortedFiles d) []

/-- The per-name load of `ReadPackageConfigs`: build `dir/name.yaml`, parse it
with `ReadMelangeConfig` and scan it with `findNoLint`; `none` if either step
fails (both failures produce the same wrapped error message). -/
def loadNamed (d : Dir) (name : String) : Option (MelangeConfig × List String) :=
  match ReadMelangeConfig d (d.path ++ "/" ++ name ++ ".yaml") with
  | none => none
  | some cfg =>
    match findNoLintFile d (d.path ++ "/" ++ name ++ ".yaml") with
    | none => none
    | some nolint => some (cfg, nolint)

/-- The loop of `ReadPackageConfigs` over the requested package names: a
failed load returns the partial map with the wrapped error; a successful load
inserts keyed by the parsed config's declared package name. -/
def readNamedLoop (d : Dir) : List String → PkgMap → PkgMap × Option String
  | [], p => (p, none)
  | name :: rest, p =>
    match loadNamed d name with
    | none =>
      (p, some ("failed to read package config " ++
        (d.path ++ "/" ++ name ++ ".yaml")))
    | some (cfg, nolint) =>
      readNamedLoop d rest (mapInsert p cfg.name
        { config := cfg
          filename := name ++ ".yaml"
          dir := d.path
          nolint := nolint
          hash := "" })

/-- `ReadPackageConfigs`: load the named packages when names were passed,
otherwise load every package in the repository. -/
def ReadPackageConfigs (packageNames : List String) (d : Dir) :
    PkgMap × Option String :=
  if packageNames.isEmpty then ReadAllPackagesFromRepo d
  else readNamedLoop d packageNames []

/-! ### Specification vocabulary for the loader theorems -/

/-- What one candidate file contributes to the map: `none` when the file is
skipped (or unreadable), otherwise the key (the parsed package name) and the
`Packages` entry built from the file. -/
def fileEntry (d : Dir) (fi : String) : Option (String × Packages) :=
  match readFile d fi with
  | none => none
  | some fd =>
    match fd.check with
    | none => none
    | some check =>
      if check.isMelangeConfig then
        match ReadMelangeConfig d fi, findNoLintFile d fi with
        | some cfg, some nolint =>
          some (cfg.name,
            { config := cfg
              filename := relPath d.path fi
              dir := d.path
              nolint := nolint
              hash := "" })
        | _, _ => none
      else none

/-- The key a candidate file would contribute, if any. -/
def keyOf (d : Dir) (fi : String) : Option String :=
  (fileEntry d fi).map (fun kv => kv.1)

/-- One error-free loop step: apply a file's contribution to the map. -/
def stepFile (d : Dir) (p : PkgMap) (fi : String) : PkgMap :=
  match fileEntry d fi with
  | some (k, v) => mapInsert p k v
  | none => p

/-- The value contributed for key `k` by the latest file in the list that
contributes `k`, if any (later files win). -/
def lastProduced (d : Dir) (k : String) : List String → Option Packages
  | [] => none
  | fi :: rest =>
    match lastProduced d k rest with
    | some v => some v
    | none =>
      match fileEntry d fi with
      | some (kv, v) => if kv = k then some v else none
      | none => none

/-- The map built by loading a list of package names in order, skipping
failed loads (the vocabulary of the partial-result property). -/
def buildMap (d : Dir) : List String → PkgMap → PkgMap
  | [], p => p
  | name :: rest, p =>
    match loadNamed d name with
    | none => buildMap d rest p
    | some (cfg, nolint) =>
      buildMap d rest (mapInsert p cfg.name
        { config := cfg
          filename := name ++ ".yaml"
          dir := d.path
          nolint := nolint
          hash := "" })

/-! ### Helper lemmas for the diff engine -/

theorem advEq_refl (a : Advisory) : advEq a a :=
  ⟨rfl, ⟨fun _ hx => hx, fun _ hy => hy⟩, rfl⟩

theorem advEq_symm : ∀ {a b : Advisory}, advEq a b → advEq b a := by
  rintro a b ⟨h1, ⟨h2, h3⟩, h4⟩
  exact ⟨h1.symm, ⟨h3, h2⟩, h4.symm⟩

theorem advEq_comm (a b : Advisory) : advEq a b ↔ advEq b a :=
  ⟨advEq_symm, advEq_symm⟩

theorem optAdvEq_refl : ∀ (x : Option Advisory), optAdvEq x x
  | none => trivial
  | some a => advEq_refl a

theorem optAdvEq_symm : ∀ {x y : Option Advisory}, optAdvEq x y → optAdvEq y x
  | none, none, _ => trivial
  | some _, some _, h => advEq_symm h
  | none, some _, h => h.elim
  | some _, none, h => h.elim

theorem sortStrings_eq_of_perm {l₁ l₂ : List String} (h : l₁.Perm l₂) :
    sortStrings l₁ = sortStrings l₂ :=
  List.eq_of_perm_of_sorted
    (((List.perm_insertionSort _ l₁).trans h).trans
      (List.perm_insertionSort _ l₂).symm)
    (List.sorted_insertionSort _ l₁) (List.sorted_insertionSort _ l₂)

theorem unionKeys_comm (xs ys : List String) : unionKeys xs ys = unionKeys ys xs :=
  sortStrings_eq_of_perm (List.perm_append_comm.dedup)

theorem docEq_refl (a : Document) : docEq a a :=
  ⟨rfl, fun _ _ => optAdvEq_refl _⟩

theorem docEq_comm (a b : Document) : docEq a b ↔ docEq b a := by
  unfold docEq
  rw [unionKeys_comm]
  constructor
  · rintro ⟨h1, h2⟩
    exact ⟨h1.symm, fun k hk => optAdvEq_symm (h2 k hk)⟩
  · rintro ⟨h1, h2⟩
    exact ⟨h1.symm, fun k hk => optAdvEq_symm (h2 k hk)⟩

theorem findAdv_id {k : String} {l : List Advisory} {adv : Advisory}
    (h : findAdv k l = some adv) : adv.id = k := by
  unfold findAdv at h
  exact of_decide_eq_true
    (@List.find?_some Advisory (fun x => decide (x.id = k)) adv l h)

theorem findDoc_name {k : String} {l : Index} {doc : Document}
    (h : findDoc k l = some doc) : doc.package.name = k := by
  unfold findDoc at h
  exact of_decide_eq_true
    (@List.find?_some Document (fun x => decide (x.package.name = k)) doc l h)

theorem diffAdvisories_mirror (a b : Advisory) (hid : a.id = b.id) :
    diffAdvisories b a = DiffResult.mirror (diffAdvisories a b) := by
  simp [diffAdvisories, DiffResult.mirror, hid]

theorem diffDocuments_mirror (a b : Document)
    (hname : a.package.name = b.package.name) :
    diffDocuments b a = DocumentDiffResult.mirror (diffDocuments a b) := by
  simp only [diffDocuments, DocumentDiffResult.mirror]
  rw [unionKeys_comm]
  simp only [DocumentDiffResult.mk.injEq]
  refine ⟨hname, ?_, ?_, ?_⟩
  · congr 1
    funext k
    cases h1 : findAdv k a.advisories <;> cases h2 : findAdv k b.advisories <;>
      simp [h1, h2]
  · congr 1
    funext k
    cases h1 : findAdv k a.advisories <;> cases h2 : findAdv k b.advisories <;>
      simp [h1, h2]
  · rw [List.map_filterMap]
    congr 1
    funext k
    cases h1 : findAdv k a.advisories <;> cases h2 : findAdv k b.advisories
    case none.none => simp [h1, h2]
    case none.some => simp [h1, h2]
    case some.none => simp [h1, h2]
    case some.some x y =>
      have hx := findAdv_id h1
      have hy := findAdv_id h2
      simp only [h1, h2]
      rw [if_congr (advEq_comm y x) rfl rfl]
      by_cases hc : advEq x y
      · simp [hc]
      · simp [hc, diffAdvisories_mirror x y (by rw [hx, hy])]

theorem dedup_pair_same (x : String) : ([x] ++ [x]).dedup = [x] := by
  rw [List.cons_append, List.nil_append,
    List.dedup_cons_of_mem (List.mem_singleton_self x),
    List.dedup_cons_of_not_mem (List.not_mem_nil x), List.dedup_nil]

theorem sortStrings_singleton (x : String) : sortStrings [x] = [x] := rfl

theorem diffDocuments_singleton (v n : String) (a b : Advisory)
    (hid : a.id = b.id) (hne : ¬ advEq a b) :
    diffDocuments ⟨v, ⟨n⟩, [a]⟩ ⟨v, ⟨n⟩, [b]⟩ =
      { name := n, added := [], removed := [], modified := [diffAdvisories a b] } := by
  have hkeys : unionKeys ([a].map (fun adv => adv.id)) ([b].map (fun adv => adv.id))
      = [b.id] := by
    simp only [List.map_cons, List.map_nil, hid]
    unfold unionKeys
    rw [dedup_pair_same, sortStrings_singleton]
  have hfa : findAdv b.id [a] = some a :=
    List.find?_cons_of_pos _ (by simp [hid])
  have hfb : findAdv b.id [b] = some b :=
    List.find?_cons_of_pos _ (by simp)
  simp only [diffDocuments]
  rw [hkeys]
  simp [hfa, hfb, hne]

/-! ### Claim theorems for the diff engine -/

/-- Claim C1: diffing any index against itself yields the wholly empty index
diff result — all three collections empty — and this empty result is the
function's ordinary return value, not an error (the differ is total). -/
theorem indexDiff_self_empty (a : Index) :
    IndexDiff a a = { added := [], removed := [], modified := [] } := by
  simp only [IndexDiff, IndexDiffResult.mk.injEq]
  refine ⟨?_, ?_, ?_⟩ <;>
    · rw [List.filterMap_eq_nil_iff]
      intro k _
      cases h : findDoc k a <;> simp [h, docEq_refl]

/-- Claim C2: diffing in the two orders produces mirror images — every added
collection in one direction equals the corresponding removed collection in
the other at all three levels, modified entries swap their added/removed
snapshots and added/removed event lists, and the package names and advisory
identifiers of modified entries coincide (the mirror keeps them). -/
theorem indexDiff_symm_mirror (a b : Index) :
    IndexDiff b a = IndexDiffResult.mirror (IndexDiff a b) := by
  simp only [IndexDiff, IndexDiffResult.mirror]
  rw [unionKeys_comm]
  simp only [IndexDiffResult.mk.injEq]
  refine ⟨?_, ?_, ?_⟩
  · congr 1
    funext k
    cases h1 : findDoc k a <;> cases h2 : findDoc k b <;> simp [h1, h2]
  · congr 1
    funext k
    cases h1 : findDoc k a <;> cases h2 : findDoc k b <;> simp [h1, h2]
  · rw [List.map_filterMap]
    congr 1
    funext k
    cases h1 : findDoc k a <;> cases h2 : findDoc k b
    case none.none => simp [h1, h2]
    case none.some => simp [h1, h2]
    case some.none => simp [h1, h2]
    case some.some x y =>
      have hx := findDoc_name h1
      have hy := findDoc_name h2
      simp only [h1, h2]
      rw [if_congr (docEq_comm y x) rfl rfl]
      by_cases hc : docEq x y
      · simp [hc]
      · simp [hc, diffDocuments_mirror x y (by rw [hx, hy])]

/-- Claim C3: for a matched, non-identical advisory pair, the added-events
list contains exactly the events of the new sequence absent (by full
structural equality) from the old sequence, the removed-events list exactly
the events of the old sequence absent from the new, and an event present in
both sequences appears in neither list, regardless of position. -/
theorem diffAdvisories_event_delta (a b : Advisory)
    (hid : a.id = b.id) (hne : ¬ advEq a b) :
    (∀ e, e ∈ (diffAdvisories a b).addedEvents ↔ e ∈ b.events ∧ e ∉ a.events) ∧
    (∀ e, e ∈ (diffAdvisories a b).removedEvents ↔ e ∈ a.events ∧ e ∉ b.events) ∧
    (∀ e, e ∈ a.events → e ∈ b.events →
      e ∉ (diffAdvisories a b).addedEvents ∧
      e ∉ (diffAdvisories a b).removedEvents) := by
  refine ⟨?_, ?_, ?_⟩ <;> intro e <;>
    simp [diffAdvisories, List.mem_filter] <;> tauto

def eventT0 : Event :=
  { timestamp := 0, type := EventType.truePositiveDetermination }

def eventF1 : Event :=
  { timestamp := 86400, type := EventType.falsePositiveDetermination }

def advOldC3 : Advisory :=
  { id := "CVE-2023-11111", aliases := [], events := [eventT0] }

def advNewC3 : Advisory :=
  { id := "CVE-2023-11111", aliases := [], events := [eventT0, eventF1] }

/-- Witness for C3 at a concrete matched, non-identical pair. -/
theorem diffAdvisories_event_delta_witness :
    (∀ e, e ∈ (diffAdvisories advOldC3 advNewC3).addedEvents ↔
      e ∈ advNewC3.events ∧ e ∉ advOldC3.events) ∧
    (∀ e, e ∈ (diffAdvisories advOldC3 advNewC3).removedEvents ↔
      e ∈ advOldC3.events ∧ e ∉ advNewC3.events) ∧
    (∀ e, e ∈ advOldC3.events → e ∈ advNewC3.events →
      e ∉ (diffAdvisories advOldC3 advNewC3).addedEvents ∧
      e ∉ (diffAdvisories advOldC3 advNewC3).removedEvents) :=
  diffAdvisories_event_delta advOldC3 advNewC3 rfl (by decide)

/-- Claim C4: for a matched pair whose event sequences hold the same events by
value but in a different order, the Advisory Differ judges the pair
non-identical (sequence equality is order-sensitive), a modified entry with
full before/after snapshots is produced at the document level, and both
derived event lists are empty. -/
theorem advisory_event_reorder (a b : Advisory)
    (hid : a.id = b.id) (hal : aliasesEqAsSets a.aliases b.aliases)
    (hperm : a.events.Perm b.events) (hne : a.events ≠ b.events) :
    ¬ advEq a b ∧
    diffAdvisories a b =
      { id := a.id, added := b, removed := a,
        addedEvents := [], removedEvents := [] } ∧
    ∀ v n, diffDocuments ⟨v, ⟨n⟩, [a]⟩ ⟨v, ⟨n⟩, [b]⟩ =
      { name := n, added := [], removed := [],
        modified := [diffAdvisories a b] } := by
  have hnadv : ¬ advEq a b := fun h => hne h.2.2
  refine ⟨hnadv, ?_, fun v n => diffDocuments_singleton v n a b hid hnadv⟩
  have h1 : b.events.filter (fun e => decide (e ∉ a.events)) = [] := by
    rw [List.filter_eq_nil_iff]
    intro e he
    simp [hperm.mem_iff.mpr he]
  have h2 : a.events.filter (fun e => decide (e ∉ b.events)) = [] := by
    rw [List.filter_eq_nil_iff]
    intro e he
    simp [hperm.mem_iff.mp he]
  simp only [diffAdvisories, DiffResult.mk.injEq]
  exact ⟨trivial, trivial, trivial, h1, h2⟩

def advOldC4 : Advisory :=
  { id := "CVE-2023-24535", aliases := ["GHSA-2222-2222-2222"],
    events := [eventT0, eventF1] }

def advNewC4 : Advisory :=
  { id := "CVE-2023-24535", aliases := ["GHSA-2222-2222-2222"],
    events := [eventF1, eventT0] }

/-- Witness for C4 at a concrete reordered-events pair. -/
theorem advisory_event_reorder_witness :
    ¬ advEq advOldC4 advNewC4 ∧
    diffAdvisories advOldC4 advNewC4 =
      { id := advOldC4.id, added := advNewC4, removed := advOldC4,
        addedEvents := [], removedEvents := [] } ∧
    ∀ v n, diffDocuments ⟨v, ⟨n⟩, [advOldC4]⟩ ⟨v, ⟨n⟩, [advNewC4]⟩ =
      { name := n, added := [], removed := [],
        modified := [diffAdvisories advOldC4 advNewC4] } :=
  advisory_event_reorder advOldC4 advNewC4 rfl (by decide) (by decide) (by decide)

/-- Claim C5: for a matched pair that differs only outside the event sequences
(the event sequences are identical), the diff record carries the complete old
advisory as removed and the complete new advisory as added, both derived
event lists are empty, and the document level reports it as a modified
entry. -/
theorem advisory_field_only_change (a b : Advisory)
    (hid : a.id = b.id) (hev : a.events = b.events) (hne : ¬ advEq a b) :
    diffAdvisories a b =
      { id := a.id, added := b, removed := a,
        addedEvents := [], removedEvents := [] } ∧
    ∀ v n, diffDocuments ⟨v, ⟨n⟩, [a]⟩ ⟨v, ⟨n⟩, [b]⟩ =
      { name := n, added := [], removed := [],
        modified := [diffAdvisories a b] } := by
  refine ⟨?_, fun v n => diffDocuments_singleton v n a b hid hne⟩
  have h1 : b.events.filter (fun e => decide (e ∉ a.events)) = [] := by
    rw [List.filter_eq_nil_iff]
    intro e he
    rw [hev]
    simp [he]
  have h2 : a.events.filter (fun e => decide (e ∉ b.events)) = [] := by
    rw [List.filter_eq_nil_iff]
    intro e he
    rw [← hev]
    simp [he]
  simp only [diffAdvisories, DiffResult.mk.injEq]
  exact ⟨trivial, trivial, trivial, h1, h2⟩

def advOldC5 : Advisory :=
  { id := "CVE-2023-24535", aliases := ["GHSA-2222-2222-2222"],
    events := [eventT0] }

def advNewC5 : Advisory :=
  { id := "CVE-2023-24535", aliases := [], events := [eventT0] }

/-- Witness for C5 at a concrete alias-only change. -/
theorem advisory_field_only_change_witness :
    diffAdvisories advOldC5 advNewC5 =
      { id := advOldC5.id, added := advNewC5, removed := advOldC5,
        addedEvents := [], removedEvents := [] } ∧
    ∀ v n, diffDocuments ⟨v, ⟨n⟩, [advOldC5]⟩ ⟨v, ⟨n⟩, [advNewC5]⟩ =
      { name := n, added := [], removed := [],
        modified := [diffAdvisories advOldC5 advNewC5] } :=
  advisory_field_only_change advOldC5 advNewC5 rfl rfl (by decide)

/-! ### Claim theorems for the loader -/

/-- Claim C6: a ConfigCheck passes `isMelangeConfig` exactly when both the
package name and the package version are non-empty strings. -/
theorem isMelangeConfig_iff (c : ConfigCheck) :
    c.isMelangeConfig = true ↔ c.package.name ≠ "" ∧ c.package.version ≠ "" := by
  unfold ConfigCheck.isMelangeConfig
  by_cases h1 : c.package.name = "" <;> by_cases h2 : c.package.version = "" <;>
    simp [h1, h2]

/-- Claim C9 (amended): the walk's candidate list holds exactly the
`.yaml`-named files lying directly in the given directory — plus the root
directory's own path when it ends in `.yaml` — and nothing from nested
directories, since every subdirectory is skipped. -/
theorem walkFiles_mem_iff (d : Dir) (fi : String) :
    fi ∈ walkFiles d ↔
      (fi = d.path ∧ isYaml d.path = true) ∨
      ∃ n fd, FsEntry.file n fd ∈ d.entries ∧ isYaml n = true ∧
        fi = d.path ++ "/" ++ n := by
  unfold walkFiles
  rw [List.mem_append]
  constructor
  · rintro (h1 | h2)
    · by_cases hy : isYaml d.path
      · rw [if_pos hy] at h1
        exact Or.inl ⟨List.mem_singleton.mp h1, hy⟩
      · rw [if_neg hy] at h1
        exact absurd h1 (List.not_mem_nil fi)
    · obtain ⟨e, he, hfe⟩ := List.mem_filterMap.mp h2
      cases e with
      | file n fd =>
        have hfe2 : (if isYaml n then some (d.path ++ "/" ++ n) else none)
            = some fi := hfe
        by_cases hy : isYaml n
        · rw [if_pos hy] at hfe2
          exact Or.inr ⟨n, fd, he, hy, (Option.some_inj.mp hfe2).symm⟩
        · rw [if_neg hy] at hfe2
          cases hfe2
      | dir n es =>
        have hfe2 : (none : Option String) = some fi := hfe
        cases hfe2
  · rintro (⟨rfl, hy⟩ | ⟨n, fd, he, hy, rfl⟩)
    · left
      rw [if_pos hy]
      exact List.mem_singleton_self _
    · right
      refine List.mem_filterMap.mpr ⟨FsEntry.file n fd, he, ?_⟩
      show (if isYaml n then some (d.path ++ "/" ++ n) else none)
        = some (d.path ++ "/" ++ n)
      rw [if_pos hy]

def fdNested : FileData :=
  { text := "", check := some ⟨⟨"nested", "1.0"⟩⟩, config := some ⟨"nested", "1.0"⟩ }

def dirYamlRoot : Dir :=
  { path := "repo.yaml",
    entries := [FsEntry.dir "sub" [FsEntry.file "inner.yaml" fdNested]] }

/-- Claim C9 counterexample: for a directory whose own path ends in `.yaml`,
the walk's candidate list contains the root path itself, which is not an
entry lying directly in the given directory — refuting the claim that only
`.yaml` entries directly in the directory are considered. -/
theorem walkFiles_root_counterexample :
    "repo.yaml" ∈ walkFiles dirYamlRoot ∧
    ¬ ∃ n fd, FsEntry.file n fd ∈ dirYamlRoot.entries ∧ isYaml n = true ∧
      "repo.yaml" = dirYamlRoot.path ++ "/" ++ n := by
  constructor
  · decide
  · rintro ⟨n, fd, hmem, -, -⟩
    simp [dirYamlRoot] at hmem

/-- Claim C10: with the candidate file readable, a file whose `ConfigCheck`
unmarshal fails, or whose check lacks a package name or version, is silently
skipped — the loop continues on the remaining files with no error — while a
file that passes the predicate and then fails the full `ReadMelangeConfig`
parse makes the loop return the partial map and a wrapped error, abandoning
the remaining files. -/
theorem processFiles_skip_or_abort (d : Dir) (fi : String) (rest : List String)
    (p : PkgMap) (fd : FileData) (hread : readFile d fi = some fd) :
    (fd.check = none → processFiles d (fi :: rest) p = processFiles d rest p) ∧
    (∀ c, fd.check = some c → c.isMelangeConfig = false →
      processFiles d (fi :: rest) p = processFiles d rest p) ∧
    (∀ c, fd.check = some c → c.isMelangeConfig = true →
      ReadMelangeConfig d fi = none →
      processFiles d (fi :: rest) p =
        (p, some ("failed to read package config " ++ fi))) := by
  refine ⟨?_, ?_, ?_⟩
  · intro hc
    simp only [processFiles, hread, hc]
  · intro c hc hm
    simp only [processFiles, hread, hc]
    rw [if_neg]
    simp [hm]
  · intro c hc hm hcfg
    simp only [processFiles, hread, hc]
    rw [if_pos hm]
    simp only [hcfg]

def fdSkipC10 : FileData :=
  { text := "", check := none, config := some ⟨"x", "1"⟩ }

def fdBadC10 : FileData :=
  { text := "", check := some ⟨⟨"bad", "1"⟩⟩, config := none }

def dirC10 : Dir :=
  { path := "w",
    entries := [FsEntry.file "a.yaml" fdSkipC10, FsEntry.file "b.yaml" fdBadC10] }

/-- Witness for C10: the unparsable-check file `a.yaml` is skipped silently,
then `b.yaml` passes the predicate, fails the full parse, and aborts with the
partial (empty) map and the wrapped error. -/
theorem processFiles_skip_or_abort_witness :
    processFiles dirC10 ["w/a.yaml", "w/b.yaml"] [] =
      ([], some ("failed to read package config " ++ "w/b.yaml")) := by
  have h1 := (processFiles_skip_or_abort dirC10 "w/a.yaml" ["w/b.yaml"] []
    fdSkipC10 (by decide)).1 rfl
  have h2 := (processFiles_skip_or_abort dirC10 "w/b.yaml" [] []
    fdBadC10 (by decide)).2.2 ⟨⟨"bad", "1"⟩⟩ rfl (by decide) (by decide)
  exact h1.trans h2

theorem readNamedLoop_error (d : Dir) (post : List String) (bad : String)
    (hbad : loadNamed d bad = none) :
    ∀ (pre : List String) (p : PkgMap), (∀ n ∈ pre, (loadNamed d n).isSome) →
      readNamedLoop d (pre ++ bad :: post) p =
        (buildMap d pre p,
          some ("failed to read package config " ++
            (d.path ++ "/" ++ bad ++ ".yaml")))
  | [], p, _ => by
    simp only [List.nil_append, readNamedLoop, hbad, buildMap]
  | n :: pre, p, hpre => by
    have hn := hpre n (List.mem_cons_self n pre)
    obtain ⟨v, hv⟩ := Option.isSome_iff_exists.mp hn
    obtain ⟨cfg, nolint⟩ := v
    rw [List.cons_append]
    simp only [readNamedLoop, hv, buildMap]
    exact readNamedLoop_error d post bad hbad pre _
      (fun m hm => hpre m (List.mem_cons_of_mem n hm))

/-- Claim C8: with a non-empty name list, `ReadPackageConfigs` returns a
non-nil error as soon as loading any named package's config (reading/parsing
it, or scanning it for nolint directives) fails; the error message names the
failing path, and the returned map holds exactly the packages loaded before
the failure — the error result is not atomic. -/
theorem readPackageConfigs_error_partial (d : Dir) (pre post : List String)
    (bad : String) (hpre : ∀ n ∈ pre, (loadNamed d n).isSome)
    (hbad : loadNamed d bad = none) :
    ReadPackageConfigs (pre ++ bad :: post) d =
      (buildMap d pre [],
        some ("failed to read package config " ++
          (d.path ++ "/" ++ bad ++ ".yaml"))) ∧
    ∃ s t, ("failed to read package config " ++
        (d.path ++ "/" ++ bad ++ ".yaml")) =
      s ++ (d.path ++ "/" ++ bad ++ ".yaml") ++ t := by
  constructor
  · unfold ReadPackageConfigs
    rw [if_neg]
    · exact readNamedLoop_error d post bad hbad pre [] hpre
    · simp
  · exact ⟨"failed to read package config ", "", by simp⟩

def fdGoodC8 : FileData :=
  { text := "#nolint:lintA", check := some ⟨⟨"goodpkg", "2.0"⟩⟩,
    config := some ⟨"goodpkg", "2.0"⟩ }

def dirC8 : Dir :=
  { path := "rp", entries := [FsEntry.file "good.yaml" fdGoodC8] }

/-- Witness for C8: loading "good" succeeds, "missing" has no file, so the
run stops there with the wrapped error and the one-entry partial map, never
reaching "after". -/
theorem readPackageConfigs_error_partial_witness :
    ReadPackageConfigs (["good"] ++ "missing" :: ["after"]) dirC8 =
      (buildMap dirC8 ["good"] [],
        some ("failed to read package config " ++
          (dirC8.path ++ "/" ++ "missing" ++ ".yaml"))) ∧
    ∃ s t, ("failed to read package config " ++
        (dirC8.path ++ "/" ++ "missing" ++ ".yaml")) =
      s ++ (dirC8.path ++ "/" ++ "missing" ++ ".yaml") ++ t :=
  readPackageConfigs_error_partial dirC8 ["good"] ["after"] "missing"
    (by decide) (by decide)

theorem find?_filter_ne (k kk : String) (h : kk ≠ k) :
    ∀ m : PkgMap,
      (m.filter (fun kv => decide (kv.1 ≠ kk))).find?
          (fun kv => decide (kv.1 = k)) =
        m.find? (fun kv => decide (kv.1 = k))
  | [] => rfl
  | x :: m => by
    by_cases hx : x.1 = kk
    · have hfilter : List.filter (fun kv => decide (kv.1 ≠ kk)) (x :: m)
          = List.filter (fun kv => decide (kv.1 ≠ kk)) m := by
        rw [List.filter_cons]
        simp [hx]
      rw [hfilter, find?_filter_ne k kk h m,
        List.find?_cons_of_neg _ (by simp [hx, h])]
    · have hfilter : List.filter (fun kv => decide (kv.1 ≠ kk)) (x :: m)
          = x :: List.filter (fun kv => decide (kv.1 ≠ kk)) m := by
        rw [List.filter_cons]
        simp [hx]
      rw [hfilter]
      by_cases hk : x.1 = k
      · rw [List.find?_cons_of_pos _ (by simp [hk]),
          List.find?_cons_of_pos _ (by simp [hk])]
      · rw [List.find?_cons_of_neg _ (by simp [hk]),
          List.find?_cons_of_neg _ (by simp [hk]),
          find?_filter_ne k kk h m]

theorem mapLookup_insert (m : PkgMap) (kk k : String) (v : Packages) :
    mapLookup (mapInsert m kk v) k = if kk = k then some v else mapLookup m k := by
  unfold mapInsert mapLookup
  rw [List.find?_append]
  by_cases h : kk = k
  · subst h
    have hnone : (List.filter (fun kv => decide (kv.1 ≠ kk)) m).find?
        (fun kv => decide (kv.1 = kk)) = none := by
      rw [List.find?_eq_none]
      intro x hx
      have hx2 := (List.mem_filter.mp hx).2
      simp only [decide_eq_true_eq] at hx2 ⊢
      exact hx2
    rw [hnone]
    simp [List.find?]
  · rw [find?_filter_ne k kk h m]
    have hone : (List.find? (fun kv => decide (kv.1 = k)) [(kk, v)]) = none := by
      simp [List.find?, h]
    rw [hone]
    simp [h]

theorem mapLookup_foldl (d : Dir) (k : String) :
    ∀ (files : List String) (p : PkgMap),
      mapLookup (files.foldl (stepFile d) p) k =
        match lastProduced d k files with
        | some v => some v
        | none => mapLookup p k
  | [], _ => rfl
  | fi :: files, p => by
    rw [List.foldl_cons, mapLookup_foldl d k files (stepFile d p fi)]
    cases hlast : lastProduced d k files with
    | some v => simp only [lastProduced, hlast]
    | none =>
      simp only [lastProduced, hlast]
      cases hfe : fileEntry d fi with
      | none => simp only [stepFile, hfe]
      | some kv =>
        obtain ⟨kk, v⟩ := kv
        simp only [stepFile, hfe]
        rw [mapLookup_insert]
        by_cases hk : kk = k <;> simp [hk]

theorem processFiles_noerr (d : Dir) :
    ∀ (files : List String) (p : PkgMap),
      (processFiles d files p).2 = none →
      processFiles d files p = (files.foldl (stepFile d) p, none)
  | [], _, _ => rfl
  | fi :: files, p, h => by
    rw [List.foldl_cons]
    cases hread : readFile d fi with
    | none =>
      simp only [processFiles, hread] at h
      simp at h
    | some fd =>
      simp only [processFiles, hread] at h ⊢
      cases hcheck : fd.check with
      | none =>
        simp only [hcheck] at h ⊢
        have hstep : stepFile d p fi = p := by
          simp only [stepFile, fileEntry, hread, hcheck]
        rw [hstep]
        exact processFiles_noerr d files p h
      | some c =>
        simp only [hcheck] at h ⊢
        by_cases hm : c.isMelangeConfig
        · rw [if_pos hm] at h ⊢
          cases hcfg : ReadMelangeConfig d fi with
          | none =>
            simp only [hcfg] at h
            simp at h
          | some cfg =>
            simp only [hcfg] at h ⊢
            cases hnl : findNoLintFile d fi with
            | none =>
              simp only [hnl] at h
              simp at h
            | some nl =>
              simp only [hnl] at h ⊢
              have hstep : stepFile d p fi = mapInsert p cfg.name
                  { config := cfg
                    filename := relPath d.path fi
                    dir := d.path
                    nolint := nl
                    hash := "" } := by
                simp only [stepFile, fileEntry, hread, hcheck, hcfg, hnl]
                rw [if_pos hm]
              rw [hstep]
              exact processFiles_noerr d files _ h
        · rw [if_neg hm] at h ⊢
          have hstep : stepFile d p fi = p := by
            simp only [stepFile, fileEntry, hread, hcheck]
            rw [if_neg hm]
          rw [hstep]
          exact processFiles_noerr d files p h

theorem lastProduced_some_mem (d : Dir) (k : String) :
    ∀ (files : List String) (v : Packages), lastProduced d k files = some v →
      ∃ f ∈ files, fileEntry d f = some (k, v)
  | [], v, h => by cases h
  | fi :: files, v, h => by
    simp only [lastProduced] at h
    cases hlast : lastProduced d k files with
    | some w =>
      simp only [hlast] at h
      obtain rfl := Option.some_inj.mp h
      obtain ⟨f, hf, he⟩ := lastProduced_some_mem d k files w hlast
      exact ⟨f, List.mem_cons_of_mem fi hf, he⟩
    | none =>
      simp only [hlast] at h
      cases hfe : fileEntry d fi with
      | none =>
        simp only [hfe] at h
        exact Option.noConfusion h
      | some kv =>
        obtain ⟨kk, w⟩ := kv
        simp only [hfe] at h
        by_cases hk : kk = k
        · rw [if_pos hk] at h
          obtain rfl := Option.some_inj.mp h
          subst hk
          exact ⟨fi, List.mem_cons_self fi files, hfe⟩
        · rw [if_neg hk] at h
          exact Option.noConfusion h

theorem lastProduced_of_max (d : Dir) (k fj : String) (v : Packages)
    (hj : fileEntry d fj = some (k, v)) :
    ∀ (files : List String), List.Sorted strLe files → fj ∈ files →
      (∀ fi ∈ files, keyOf d fi = some k → strLe fi fj) →
      lastProduced d k files = some v
  | [], _, hmem, _ => absurd hmem (List.not_mem_nil fj)
  | f :: files, hsort, hmem, hmax => by
    obtain ⟨hf, hsort2⟩ := List.sorted_cons.mp hsort
    cases hlast : lastProduced d k files with
    | some w =>
      obtain ⟨f2, hf2mem, hf2⟩ := lastProduced_some_mem d k files w hlast
      have hf2k : keyOf d f2 = some k := by simp [keyOf, hf2]
      have hle : strLe f2 fj := hmax f2 (List.mem_cons_of_mem f hf2mem) hf2k
      cases List.mem_cons.mp hmem with
      | inl hfj =>
        have hge : strLe fj f2 := hfj ▸ hf f2 hf2mem
        have heq2 : f2 = fj := antisymm hle hge
        subst heq2
        have hwv := hf2.symm.trans hj
        simp only [Option.some_inj, Prod.mk.injEq, true_and] at hwv
        subst hwv
        simp only [lastProduced, hlast]
      | inr hfj =>
        have hrec := lastProduced_of_max d k fj v hj files hsort2 hfj
          (fun fi hfi hk => hmax fi (List.mem_cons_of_mem f hfi) hk)
        rw [hlast] at hrec
        obtain rfl := Option.some_inj.mp hrec
        simp only [lastProduced, hlast]
    | none =>
      cases List.mem_cons.mp hmem with
      | inr hfj =>
        have hrec := lastProduced_of_max d k fj v hj files hsort2 hfj
          (fun fi hfi hk => hmax fi (List.mem_cons_of_mem f hfi) hk)
        rw [hlast] at hrec
        cases hrec
      | inl hfj =>
        subst hfj
        simp [lastProduced, hlast, hj]

/-- Claim C7: `ReadAllPackagesFromRepo` is deterministic last-write-wins — the
candidate files are sorted lexicographically before loading, and for any
package name, the returned map (on an error-free run) holds the entry built
from the lexicographically greatest file contributing that name; being a pure
function of the directory, repeated runs return the same map. -/
theorem readAllPackagesFromRepo_last_write_wins (d : Dir) (k fj : String)
    (v : Packages) (hnoerr : (ReadAllPackagesFromRepo d).2 = none)
    (hmem : fj ∈ sortedFiles d) (hj : fileEntry d fj = some (k, v))
    (hmax : ∀ fi ∈ sortedFiles d, keyOf d fi = some k → strLe fi fj) :
    List.Sorted strLe (sortedFiles d) ∧
    mapLookup (ReadAllPackagesFromRepo d).1 k = some v := by
  have hsort : List.Sorted strLe (sortedFiles d) :=
    List.sorted_insertionSort strLe (walkFiles d)
  refine ⟨hsort, ?_⟩
  have hnoerr2 : (processFiles d (sortedFiles d) []).2 = none := hnoerr
  have heq := processFiles_noerr d (sortedFiles d) [] hnoerr2
  have hlp := lastProduced_of_max d k fj v hj (sortedFiles d) hsort hmem hmax
  have hfold : mapLookup ((sortedFiles d).foldl (stepFile d) []) k = some v := by
    rw [mapLookup_foldl d k (sortedFiles d) [], hlp]
  show mapLookup (processFiles d (sortedFiles d) []).1 k = some v
  rw [heq]
  exact hfold

def fdAC7 : FileData :=
  { text := "", check := some ⟨⟨"dup", "1"⟩⟩, config := some ⟨"dup", "1"⟩ }

def fdBC7 : FileData :=
  { text := "", check := some ⟨⟨"dup", "2"⟩⟩, config := some ⟨"dup", "2"⟩ }

def dirC7 : Dir :=
  { path := "repo",
    entries := [FsEntry.file "b.yaml" fdBC7, FsEntry.file "a.yaml" fdAC7] }

/-- Witness for C7: `a.yaml` and `b.yaml` both declare package "dup"; the
entry built from the lexicographically greater filename `b.yaml` is the one
in the returned map. -/
theorem readAllPackagesFromRepo_last_write_wins_witness :
    List.Sorted strLe (sortedFiles dirC7) ∧
    mapLookup (ReadAllPackagesFromRepo dirC7).1 "dup" =
      some { config := ⟨"dup", "2"⟩, filename := "b.yaml", dir := "repo",
             nolint := [], hash := "" } :=
  readAllPackagesFromRepo_last_write_wins dirC7 "dup" "repo/b.yaml"
    { config := ⟨"dup", "2"⟩, filename := "b.yaml", dir := "repo",
      nolint := [], hash := "" }
    (by decide) (by decide) (by decide) (by decide)
